import Mathlib

/-!
A shallow embedding of the split-loot tool of the tibia-agent repository:
the session-data parser (`parseSessionData`), the settlement engine
(`calcRecorded` / `calcSplit`) and the outer `execute` boundary, together
with theorems checking the specification's claims.

Python strings are modelled as lists of characters, Python dictionaries as
insertion-ordered association lists, and the numeric values flowing through
the settlement engine as exact rationals built from kernel-reducible
primitives (`Rat.divInt`, a num/den subtraction, `Rat.floor`).  The
`TypeError` that Python raises when a string-valued statistic reaches an
arithmetic operation is modelled by computing in `Except Unit`; the text of
the exception message is abstracted.
-/

namespace SplitLoot

abbrev Line := List Char

/-- Whitespace characters removed by Python's `str.strip`. -/
def pyIsSpace (c : Char) : Bool :=
  c == ' ' || c == '\t' || c == '\n' || c == '\r' || c == '\x0b' || c == '\x0c'

/-- Python `str.strip`: drop whitespace from both ends. -/
def pyStrip (l : Line) : Line :=
  ((l.dropWhile pyIsSpace).reverse.dropWhile pyIsSpace).reverse

/-- ASCII lower-casing, as used by `str.lower` on the recognized keywords. -/
def pyLowerChar (c : Char) : Char :=
  if 'A' ≤ c && c ≤ 'Z' then Char.ofNat (c.toNat + 32) else c

def pyLower (l : Line) : Line := l.map pyLowerChar

/-- Python `str.startswith`. -/
def startsWithL : Line → Line → Bool
  | _, [] => true
  | [], _ :: _ => false
  | c :: cs, p :: ps => c == p && startsWithL cs ps

/-- Python `needle in hay` substring test. -/
def containsL : Line → Line → Bool
  | [], needle => needle.isEmpty
  | c :: cs, needle => startsWithL (c :: cs) needle || containsL cs needle

/-- Case-insensitive prefix match (regex matching with `re.IGNORECASE`). -/
def startsWithCI : Line → Line → Bool
  | _, [] => true
  | [], _ :: _ => false
  | c :: cs, p :: ps => pyLowerChar c == pyLowerChar p && startsWithCI cs ps

/-- The anchored regex `\d{2}:\d{2}h` used for session duration lines. -/
def timePattern (l : Line) : Bool :=
  match l with
  | c0 :: c1 :: c2 :: c3 :: c4 :: c5 :: _ =>
      c0.isDigit && c1.isDigit && c2 == ':' && c3.isDigit && c4.isDigit && c5 == 'h'
  | _ => false

/-- Python `line.split(":", 1)` under the guarantee that a colon is present:
the part before the first colon and the part after it. -/
def splitColon1 (l : Line) : Line × Line :=
  (l.takeWhile (fun c => c != ':'), (l.dropWhile (fun c => c != ':')).tail)

/-- Python `line.split('\n')`, keeping empty pieces. -/
def splitNl : Line → List Line
  | [] => [[]]
  | c :: cs =>
    match splitNl cs with
    | [] => [[c]]
    | l :: ls => if c == '\n' then [] :: l :: ls else (c :: l) :: ls

/-- Python `line.replace("(Leader)", "")`: every occurrence of the
case-sensitive eight-character marker is removed, scanning left to right. -/
def stripLeaderMarks : Line → Line
  | '(' :: 'L' :: 'e' :: 'a' :: 'd' :: 'e' :: 'r' :: ')' :: rest => stripLeaderMarks rest
  | c :: cs => c :: stripLeaderMarks cs
  | [] => []

/-- Python `int(...)` on an already comma-free token: optional surrounding
whitespace, optional sign, then a non-empty run of decimal digits. -/
def pyIntOpt (l : Line) : Option Int :=
  let t := pyStrip l
  let digits (d : Line) : Option Int :=
    if d ≠ [] ∧ d.all (·.isDigit) then
      some (Int.ofNat (d.foldl (fun a c => a * 10 + (c.toNat - 48)) 0))
    else none
  match t with
  | '-' :: rest => (digits rest).map (fun n => -n)
  | '+' :: rest => digits rest
  | _ => digits t

/-- A statistic value as stored in a player's record: an integer when the
text parses, otherwise the raw (trimmed, comma-free) string. -/
inductive StatVal
  | int (n : ℤ)
  | str (s : String)
deriving DecidableEq

/-- The source's per-field parse: an explicit leading minus is split off and
the remainder parsed; a `ValueError` stores the raw value string instead. -/
def parseStatVal (v : Line) : StatVal :=
  let r :=
    if startsWithL v "-".data then (pyIntOpt (v.drop 1)).map (fun n => -n)
    else pyIntOpt v
  match r with
  | some n => .int n
  | none => .str (String.mk v)

structure PlayerRec where
  loot : Option StatVal := none
  supplies : Option StatVal := none
  balance : Option StatVal := none
  damage : Option StatVal := none
  healing : Option StatVal := none
deriving DecidableEq

/-- Store a lower-cased stat key into a player record. -/
def setStat (r : PlayerRec) (key : Line) (v : StatVal) : PlayerRec :=
  if key = "loot".data then { r with loot := some v }
  else if key = "supplies".data then { r with supplies := some v }
  else if key = "balance".data then { r with balance := some v }
  else if key = "damage".data then { r with damage := some v }
  else if key = "healing".data then { r with healing := some v }
  else r

/-- The player map: an insertion-ordered association list, the model of a
Python dict (an overwrite keeps the key's original position). -/
abbrev Players := List (String × PlayerRec)

/-- Dict assignment `players[k] = v`: overwrite in place or append. -/
def upsert (m : Players) (k : String) (v : PlayerRec) : Players :=
  match m with
  | [] => [(k, v)]
  | (k0, v0) :: rest => if k0 = k then (k, v) :: rest else (k0, v0) :: upsert rest k v

/-- In-place update of the record stored under a key. -/
def updateRec (m : Players) (k : String) (f : PlayerRec → PlayerRec) : Players :=
  m.map (fun kv => if kv.1 = k then (kv.1, f kv.2) else kv)

structure ParseState where
  players : Players := []
  sessionInfo : Line := []
  lootType : Line := []
  current : Option String := none
  inHeader : Bool := true
deriving DecidableEq

/-- Branch 1 of the line classifier: session-header and loot-type lines. -/
def isSessionInfoLine (l : Line) : Bool :=
  startsWithL l "Session data:".data || startsWithL l "Session:".data ||
  containsL (pyLower l) "from 20".data || timePattern l ||
  startsWithL l "Loot Type:".data

/-- The three aggregate stat prefixes skipped while still in the header. -/
def isAggLine (l : Line) : Bool :=
  startsWithL l "Loot:".data || startsWithL l "Supplies:".data ||
  startsWithL l "Balance:".data

/-- The five per-player stat prefixes. -/
def isStatLine (l : Line) : Bool :=
  isAggLine l || startsWithL l "Damage:".data || startsWithL l "Healing:".data

/-- The keyword screen applied before accepting a line as a player name. -/
def hasSessionKeyword (l : Line) : Bool :=
  let low := pyLower l
  containsL low "session".data || containsL low "loot type".data ||
  containsL low "from 20".data ||
  (if l = "leader".data then containsL low "leader".data else false)

/-- Python `str.isdigit` restricted to ASCII digits. -/
def isDigitLine (l : Line) : Bool := !l.isEmpty && l.all (·.isDigit)

/-- One iteration of the source's line-classification loop. -/
def parseStep (st : ParseState) (rawLine : Line) : ParseState :=
  let line := pyStrip rawLine
  if isSessionInfoLine line then
    { st with
      sessionInfo := st.sessionInfo ++ line ++ ['\n']
      lootType :=
        if startsWithL line "Loot Type:".data then pyStrip (splitColon1 line).2
        else st.lootType
      inHeader := true }
  else if st.inHeader && isAggLine line then
    { st with sessionInfo := st.sessionInfo ++ line ++ ['\n'] }
  else if isStatLine line then
    let st1 := { st with inHeader := false }
    match st1.current with
    | some name =>
      if containsL line ":".data then
        let kv := splitColon1 line
        let key := pyLower (pyStrip kv.1)
        let value := (pyStrip kv.2).filter (fun c => c != ',')
        { st1 with players := updateRec st1.players name (fun r => setStat r key (parseStatVal value)) }
      else st1
    | none => st1
  else
    if !line.isEmpty && !hasSessionKeyword line && !isStatLine line && !timePattern line then
      if st.inHeader && (isDigitLine line || decide (line = "leader".data)) then st
      else
        let pname := pyStrip (stripLeaderMarks line)
        if 1 < pname.length then
          { st with
            players := upsert st.players (String.mk pname) {}
            current := some (String.mk pname)
            inHeader := false }
        else { st with inHeader := false }
    else st

/-- Characters matched by the regex class `[a-z\s]` under `re.IGNORECASE`. -/
def isNameChar (c : Char) : Bool :=
  ('a' ≤ c && c ≤ 'z') || ('A' ≤ c && c ≤ 'Z') || pyIsSpace c

/-- One pass of `re.sub` for a literal keyword pattern with optional negative
lookbehinds: a newline is inserted before every case-insensitive occurrence
whose preceding text does not end in one of the lookbehind literals.
`revPre` carries the already-scanned original text, reversed. -/
def subKwAux (p0 : Char) (prest : Line) (lbs : List Line) (revPre : Line) : Line → Line
  | [] => []
  | c :: cs =>
    if startsWithCI (c :: cs) (p0 :: prest) &&
        lbs.all (fun lb => !startsWithCI revPre lb.reverse) then
      let m := (c :: cs).take (p0 :: prest).length
      '\n' :: (m ++ subKwAux p0 prest lbs (m.reverse ++ revPre) (cs.drop prest.length))
    else c :: subKwAux p0 prest lbs (c :: revPre) cs
termination_by l => l.length
decreasing_by
  · simp only [List.length_cons, List.length_drop]; omega
  · simp only [List.length_cons]; omega

def subKw (pat : String) (lbs : List String) (l : Line) : Line :=
  match pat.data with
  | [] => l
  | p :: ps => subKwAux p ps (lbs.map (fun s => s.data)) [] l

/-- The keyword alternation `(loot:|supplies:|balance:|damage:|healing:)`:
the length of the alternative matching at the start of the text, if any. -/
def firstKwAt (l : Line) : Option Nat :=
  if startsWithCI l "loot:".data then some 5
  else if startsWithCI l "supplies:".data then some 9
  else if startsWithCI l "balance:".data then some 8
  else if startsWithCI l "damage:".data then some 7
  else if startsWithCI l "healing:".data then some 8
  else none

/-- Greedy backtracking match of `\s+` followed by the keyword alternation:
tries the whitespace width `w` downward from the given bound and returns the
first `(w, keywordLength)` that completes. -/
def tryWsKwFrom (l : Line) : Nat → Option (Nat × Nat)
  | 0 => none
  | w + 1 =>
    if (l.take (w + 1)).all pyIsSpace then
      match firstKwAt (l.drop (w + 1)) with
      | some k => some (w + 1, k)
      | none => tryWsKwFrom l w
    else tryWsKwFrom l w

def tryWsKwStart (l : Line) : Option (Nat × Nat) :=
  tryWsKwFrom l (l.takeWhile pyIsSpace).length

/-- Greedy backtracking match of `([a-z\s]+)\s+(keyword)` at the start of the
text: the group-1 width `g` is tried downward from the `[a-z\s]` run length. -/
def tryNameKwFrom (l : Line) : Nat → Option (Nat × Nat × Nat)
  | 0 => none
  | g + 1 =>
    if (l.take (g + 1)).all isNameChar then
      match tryWsKwStart (l.drop (g + 1)) with
      | some wk => some (g + 1, wk.1, wk.2)
      | none => tryNameKwFrom l g
    else tryNameKwFrom l g

def tryNameKw (l : Line) : Option (Nat × Nat × Nat) :=
  tryNameKwFrom l (l.takeWhile isNameChar).length

/-- One pass of `re.sub` for the player-name pattern
`([a-z\s]+)\s+(loot:|supplies:|balance:|damage:|healing:)` with replacement
`\n\1\n\2` (the separating whitespace is consumed). -/
def subNameKwAux : Line → Line
  | [] => []
  | c :: cs =>
    match tryNameKw (c :: cs) with
    | some (g, w, k) =>
      let l := c :: cs
      '\n' :: (l.take g ++ '\n' :: ((l.drop (g + w)).take k ++ subNameKwAux (cs.drop (g - 1 + w + k))))
    | none => c :: subNameKwAux cs
termination_by l => l.length
decreasing_by
  · simp only [List.length_cons, List.length_drop]; omega
  · simp only [List.length_cons]; omega

/-- One pass of `re.sub` for `\(leader\)\s+(keyword)` with replacement
`(Leader)\n\2`. -/
def subLeaderKw : Line → Line
  | [] => []
  | c :: cs =>
    if startsWithCI (c :: cs) "(leader)".data then
      match tryWsKwStart ((c :: cs).drop 8) with
      | some wk =>
        "(Leader)".data ++ '\n' :: (((c :: cs).drop (8 + wk.1)).take wk.2 ++
          subLeaderKw (cs.drop (7 + wk.1 + wk.2)))
      | none => c :: subLeaderKw cs
    else c :: subLeaderKw cs
termination_by l => l.length
decreasing_by
  · simp only [List.length_cons, List.length_drop]; omega
  · simp only [List.length_cons]; omega
  · simp only [List.length_cons]; omega

/-- The single-line reconstruction path: the sequential `re.sub` passes
followed by splitting on newlines, trimming, and dropping empty pieces. -/
def reconstructLines (orig : Line) : List Line :=
  let t1 := subKw "session:" [] orig
  let t2 := subKw "loot type:" [] t1
  let t3 := subKw "loot:" ["loot type: ", "session: "] t2
  let t4 := subKw "supplies:" [] t3
  let t5 := subKw "balance:" [] t4
  let t6 := subKw "damage:" [] t5
  let t7 := subKw "healing:" [] t6
  let t8 := subNameKwAux t7
  let t9 := subLeaderKw t8
  ((splitNl t9).map pyStrip).filter (fun l => !l.isEmpty)

/-- The whole parser `_parse_session_data`: newline splitting of the trimmed
input, best-effort reconstruction for long single-line inputs, and the
line-classification loop. -/
def parseSessionData (input : Line) : ParseState :=
  let ls := splitNl (pyStrip input)
  let ls :=
    if ls.length = 1 ∧ 100 < input.length then reconstructLines (pyStrip input)
    else ls
  ls.foldl parseStep {}

/-! ### The settlement engine -/

/-- Subtraction on ℚ written with kernel-reducible primitives; `pySub_eq`
identifies it with the field subtraction. -/
def pySub (a b : ℚ) : ℚ :=
  Rat.divInt (a.num * (b.den : ℤ) - b.num * (a.den : ℤ)) ((a.den : ℤ) * (b.den : ℤ))

/-- Python's `int()` truncation toward zero on a rational value. -/
def pyTrunc (q : ℚ) : ℤ :=
  if q < 0 then -Rat.floor (-q) else Rat.floor q

/-- The `dict.get(key, 0)` read of a statistic. -/
def statOr0 (o : Option StatVal) : StatVal := o.getD (.int 0)

/-- Using a statistic in arithmetic: a string raises a `TypeError`. -/
def asIntE : StatVal → Except Unit ℤ
  | .int n => .ok n
  | .str _ => .error ()

/-- Python `sum` over statistic values: a left fold that raises at the first
string value. -/
def pySumAux (acc : ℤ) : List StatVal → Except Unit ℤ
  | [] => .ok acc
  | v :: vs =>
    match v with
    | .int n => pySumAux (acc + n) vs
    | .str _ => .error ()

def sumLootE (ps : Players) : Except Unit ℤ :=
  pySumAux 0 (ps.map (fun p => statOr0 p.2.loot))

def sumSuppliesE (ps : Players) : Except Unit ℤ :=
  pySumAux 0 (ps.map (fun p => statOr0 p.2.supplies))

def netProfitE (ps : Players) : Except Unit ℤ := do
  let tl ← sumLootE ps
  let ts ← sumSuppliesE ps
  pure (tl - ts)

/-- `fair_share = net_profit / num_players`, the two integers divided as
exact rationals (the model of the source's real-valued division). -/
def fairShareE (ps : Players) : Except Unit ℚ :=
  (netProfitE ps).map (fun n => Rat.divInt n (ps.length : ℤ))

/-- The per-player `difference = fair_share - current_balance` loop; a
string-valued balance raises. -/
def deltasFrom (fs : ℚ) : Players → Except Unit (List (String × ℚ))
  | [] => .ok []
  | p :: ps => do
    let b ← asIntE (statOr0 p.2.balance)
    let rest ← deltasFrom fs ps
    pure ((p.1, pySub fs (b : ℚ)) :: rest)

def calcDeltas (ps : Players) : Except Unit (List (String × ℚ)) := do
  let fs ← fairShareE ps
  deltasFrom fs ps

/-- Each player's `(needs_to_receive, needs_to_pay)` pair. -/
def pbOf (ds : List (String × ℚ)) : List (String × ℚ × ℚ) :=
  ds.map (fun nd => (nd.1, if 0 < nd.2 then nd.2 else 0, if nd.2 < 0 then -nd.2 else 0))

def payersOf (pb : List (String × ℚ × ℚ)) : List (String × ℚ) :=
  (pb.filter (fun x => decide (0 < x.2.2))).map (fun x => (x.1, x.2.2))

def receiversOf (pb : List (String × ℚ × ℚ)) : List (String × ℚ) :=
  (pb.filter (fun x => decide (0 < x.2.1))).map (fun x => (x.1, x.2.1))

/-- Stable insertion step for descending order: the new element goes in
front of the first element whose key does not exceed its own. -/
def insertDesc {α : Type} (key : α → ℚ) (x : α) : List α → List α
  | [] => [x]
  | y :: ys => if key y ≤ key x then x :: y :: ys else y :: insertDesc key x ys

/-- The model of Python's stable `list.sort(key=..., reverse=True)`. -/
def sortDesc {α : Type} (key : α → ℚ) : List α → List α
  | [] => []
  | x :: xs => insertDesc key x (sortDesc key xs)

/-- One recorded transfer: payer, untruncated amount, receiver. -/
abbrev Rec3 := String × ℚ × String

/-- The greedy two-pointer matching loop over the sorted payer and receiver
lists, indexed by fuel (one unit per iteration of the source's `while`).
The head of each list is the current pointer position; a head is dropped
exactly when the source advances the corresponding index.  `none` means the
fuel ran out before either list was exhausted. -/
def settleFuel : Nat → List (String × ℚ) → List (String × ℚ) → Option (List Rec3)
  | _, [], _ => some []
  | _, _ :: _, [] => some []
  | 0, _ :: _, _ :: _ => none
  | n + 1, (pn, pa) :: ps, (rn, ra) :: rs =>
    if 0 < min pa ra then
      (settleFuel n (if pySub pa (min pa ra) ≤ 0 then ps else (pn, pySub pa (min pa ra)) :: ps)
        (if pySub ra (min pa ra) ≤ 0 then rs else (rn, pySub ra (min pa ra)) :: rs)).map
        (fun l => (pn, min pa ra, rn) :: l)
    else
      settleFuel n (if pa ≤ 0 then ps else (pn, pa) :: ps)
        (if ra ≤ 0 then rs else (rn, ra) :: rs)

/-- The greedy matching loop itself; `settleFuel_run` below proves that this
fuel is always sufficient, so the default value is never taken. -/
def settleLoop (ps rs : List (String × ℚ)) : List Rec3 :=
  (settleFuel (ps.length + rs.length) ps rs).getD []

/-- The caller-visible transfer string
`"<payer>: transfer <int(amount)> to <receiver>"`. -/
def renderTransfer (r : Rec3) : String :=
  r.1 ++ ": transfer " ++ toString (pyTrunc r.2.1) ++ " to " ++ r.2.2

/-- `_calculate_split` up to rendering: the recorded transfers with their
untruncated amounts. -/
def calcRecorded (ps : Players) : Except Unit (List Rec3) := do
  let ds ← calcDeltas ps
  if ps.length = 0 then pure []
  else
    let pb := pbOf ds
    pure (settleLoop (sortDesc (fun x => x.2) (payersOf pb))
      (sortDesc (fun x => x.2) (receiversOf pb)))

/-- `_calculate_split`: the rendered transfer strings. -/
def calcSplit (ps : Players) : Except Unit (List String) :=
  (calcRecorded ps).map (List.map renderTransfer)

structure DH where
  player : String
  damage : StatVal
  healing : StatVal
deriving DecidableEq

/-- `_extract_damage_healing`: a projection of the parsed data. -/
def extractDH (ps : Players) : List DH :=
  ps.map (fun p => ⟨p.1, statOr0 p.2.damage, statOr0 p.2.healing⟩)

structure SessionSummary where
  total_loot : ℤ
  total_supplies : ℤ
  net_profit : ℤ
  loot_type : String
  session_info : String
deriving DecidableEq

/-- The output object of `execute`; every field is optional (`none` models
an absent dict key), because the `return result` inside the source's
`finally` clause makes the function return whatever `result` holds, and on
one path `result` is still the initial empty dict. -/
structure ExecResult where
  success : Option Bool := none
  transfers : Option (List String) := none
  damage_healing_data : Option (List DH) := none
  session_summary : Option SessionSummary := none
  players_parsed : Option (List String) := none
  error : Option String := none
  message : Option String := none
deriving DecidableEq

/-- The outer `execute` boundary: parse, settle, and catch the exception of
the aggregation step (its message text is abstracted as the fixed prefix of
the source's format string).  The `finally` clause ends in `return result`,
which supersedes any pending return from the `try` body: on the no-players
path the early error dict is built but discarded, `result` was never
reassigned there, and the initial empty dict is what the caller receives.
On the success and exception paths `result` has been reassigned before the
`finally` clause runs, so those returns are unchanged. -/
def execute (input : String) : ExecResult :=
  let st := parseSessionData input.data
  if st.players = [] then {}
  else
    match calcSplit st.players with
    | .ok ts =>
      { success := some true
        transfers := some ts
        damage_healing_data := some (extractDH st.players)
        session_summary := some
          { total_loot := (sumLootE st.players).toOption.getD 0
            total_supplies := (sumSuppliesE st.players).toOption.getD 0
            net_profit := (netProfitE st.players).toOption.getD 0
            loot_type := String.mk st.lootType
            session_info := String.mk (pyStrip st.sessionInfo) }
        players_parsed := some (st.players.map (fun p => p.1)) }
    | .error _ =>
      { success := some false
        error := some "Failed to process loot split: "
        message := some input
        transfers := some [] }

instance {ε α : Type} [DecidableEq ε] [DecidableEq α] : DecidableEq (Except ε α)
  | .error e, .error f =>
    if h : e = f then isTrue (by rw [h]) else isFalse (by simp [h])
  | .error _, .ok _ => isFalse (by simp)
  | .ok _, .error _ => isFalse (by simp)
  | .ok a, .ok b =>
    if h : a = b then isTrue (by rw [h]) else isFalse (by simp [h])

/-! ### Quantities used to state the claims -/

/-- Sum of the untruncated recorded amounts in which `n` is the payer. -/
def paidQ (recs : List Rec3) (n : String) : ℚ :=
  ((recs.filter (fun r => decide (r.1 = n))).map (fun r => r.2.1)).sum

/-- Sum of the untruncated recorded amounts in which `n` is the receiver. -/
def recvQ (recs : List Rec3) (n : String) : ℚ :=
  ((recs.filter (fun r => decide (r.2.2 = n))).map (fun r => r.2.1)).sum

/-- Sum of the emitted (truncated) amounts in which `n` is the payer. -/
def paidZ (recs : List Rec3) (n : String) : ℤ :=
  ((recs.filter (fun r => decide (r.1 = n))).map (fun r => pyTrunc r.2.1)).sum

/-- Sum of the emitted (truncated) amounts in which `n` is the receiver. -/
def recvZ (recs : List Rec3) (n : String) : ℤ :=
  ((recs.filter (fun r => decide (r.2.2 = n))).map (fun r => pyTrunc r.2.1)).sum

/-- Total amount lost to rounding over the recorded transfers. -/
def residQ (recs : List Rec3) : ℚ :=
  (recs.map (fun r => r.2.1 - (pyTrunc r.2.1 : ℚ))).sum

/-- Sum of the amounts attached to a given name in a payer/receiver list. -/
def amtSum (l : List (String × ℚ)) (n : String) : ℚ :=
  ((l.filter (fun x => decide (x.1 = n))).map (fun x => x.2)).sum

/-- The projection of a player entry the settlement engine may read:
name, loot, supplies and balance, but not damage or healing. -/
def settlementView (p : String × PlayerRec) :
    String × Option StatVal × Option StatVal × Option StatVal :=
  (p.1, p.2.loot, p.2.supplies, p.2.balance)

/-! ### Concrete inputs used by witnesses and counterexamples -/

/-- Two players: `Aa` is 100 below fair share, `Bb` is 100 above it. -/
def exTwo : Players :=
  [("Aa", { balance := some (.int (-100)) }),
   ("Bb", { balance := some (.int 100) })]

/-- Three players with net profit 1: the fair share `1/3` is not an
integer, so the greedy matching transfers thirds. -/
def exThirds : Players :=
  [("A", { loot := some (.int 1), supplies := some (.int 0), balance := some (.int 1) }),
   ("B", { loot := some (.int 0), supplies := some (.int 0), balance := some (.int 0) }),
   ("C", { loot := some (.int 0), supplies := some (.int 0), balance := some (.int 0) })]

/-- The specification's three-player scenario: loot `{A:300, B:0, C:0}`,
supplies all 0, balances all 0. -/
def exSpecThree : Players :=
  [("A", { loot := some (.int 300), supplies := some (.int 0), balance := some (.int 0) }),
   ("B", { loot := some (.int 0), supplies := some (.int 0), balance := some (.int 0) }),
   ("C", { loot := some (.int 0), supplies := some (.int 0), balance := some (.int 0) })]

/-- Like `exTwo` but with damage and healing data present. -/
def exTwoDmg : Players :=
  [("Aa", { balance := some (.int (-100)), damage := some (.int 55), healing := some (.int 7) }),
   ("Bb", { balance := some (.int 100), damage := some (.str "n/a") })]

/-- A mid-parse state whose map already holds a record for `Bob Ray`. -/
def exState : ParseState :=
  { players := [("Bob Ray", { loot := some (.int 5) })]
    sessionInfo := []
    lootType := []
    current := some "Bob Ray"
    inHeader := false }

/-! ### Helper lemmas -/

theorem pySub_eq (a b : ℚ) : pySub a b = a - b := by
  have ha : ((a.den : ℚ)) ≠ 0 := by exact_mod_cast a.den_nz
  have hb : ((b.den : ℚ)) ≠ 0 := by exact_mod_cast b.den_nz
  rw [pySub, Rat.divInt_eq_div]
  push_cast
  conv_rhs => rw [← Rat.num_div_den a, ← Rat.num_div_den b]
  rw [div_sub_div _ _ ha hb]
  ring_nf

/-- In each loop iteration at least one list shrinks, so the combined
remaining length strictly drops. -/
theorem settleStep_shrinks (pn rn : String) (pa ra : ℚ) (ps rs : List (String × ℚ)) :
    (if 0 < min pa ra then
      (if pySub pa (min pa ra) ≤ 0 then ps else (pn, pySub pa (min pa ra)) :: ps).length +
        (if pySub ra (min pa ra) ≤ 0 then rs else (rn, pySub ra (min pa ra)) :: rs).length
    else
      (if pa ≤ 0 then ps else (pn, pa) :: ps).length +
        (if ra ≤ 0 then rs else (rn, ra) :: rs).length) < ps.length + 1 + (rs.length + 1) := by
  split
  · rename_i ht
    have key : pySub pa (min pa ra) ≤ 0 ∨ pySub ra (min pa ra) ≤ 0 := by
      rcases le_total pa ra with hle | hle
      · left; rw [pySub_eq, min_eq_left hle, sub_self]
      · right; rw [pySub_eq, min_eq_right hle, sub_self]
    rcases key with hk | hk <;> rw [if_pos hk] <;> split <;>
      first
      | omega
      | (simp only [List.length_cons]; omega)
  · rename_i ht
    have key : pa ≤ 0 ∨ ra ≤ 0 := min_le_iff.mp (not_lt.mp ht)
    rcases key with hk | hk <;> rw [if_pos hk] <;> split <;>
      first
      | omega
      | (simp only [List.length_cons]; omega)

theorem settleFuel_nil_left (n : Nat) (rs : List (String × ℚ)) :
    settleFuel n [] rs = some [] := by
  cases n <;> rfl

theorem settleFuel_nil_right (n : Nat) (ps : List (String × ℚ)) :
    settleFuel n ps [] = some [] := by
  cases n <;> cases ps <;> rfl

/-- Any fuel at least the combined list length gives the same run as the
exact combined length: the loop finishes within that many iterations. -/
theorem settleFuel_of_le : ∀ (n : Nat) (ps rs : List (String × ℚ)),
    ps.length + rs.length ≤ n →
    settleFuel n ps rs = settleFuel (ps.length + rs.length) ps rs := by
  intro n
  induction n using Nat.strong_induction_on with
  | _ n ih =>
    intro ps rs hle
    match n, ps, rs with
    | m, [], rs => rw [settleFuel_nil_left, settleFuel_nil_left]
    | m, p :: ps, [] => rw [settleFuel_nil_right, settleFuel_nil_right]
    | n + 1, (pn, pa) :: ps, (rn, ra) :: rs =>
      have hshrink := settleStep_shrinks pn rn pa ra ps rs
      simp only [List.length_cons] at hle ⊢
      rw [show ps.length + 1 + (rs.length + 1) = ps.length + 1 + rs.length + 1 from rfl,
        settleFuel, settleFuel]
      split
      · rename_i ht
        rw [if_pos ht] at hshrink
        set ps1 := if pySub pa (min pa ra) ≤ 0 then ps else (pn, pySub pa (min pa ra)) :: ps
        set rs1 := if pySub ra (min pa ra) ≤ 0 then rs else (rn, pySub ra (min pa ra)) :: rs
        rw [ih n (by omega) ps1 rs1 (by omega),
          ih (ps.length + 1 + rs.length) (by omega) ps1 rs1 (by omega)]
      · rename_i ht
        rw [if_neg ht] at hshrink
        set ps1 := if pa ≤ 0 then ps else (pn, pa) :: ps
        set rs1 := if ra ≤ 0 then rs else (rn, ra) :: rs
        rw [ih n (by omega) ps1 rs1 (by omega),
          ih (ps.length + 1 + rs.length) (by omega) ps1 rs1 (by omega)]

/-- With fuel equal to the combined length the loop always completes. -/
theorem settleFuel_isSome : ∀ (n : Nat) (ps rs : List (String × ℚ)),
    ps.length + rs.length ≤ n → (settleFuel n ps rs).isSome := by
  intro n
  induction n using Nat.strong_induction_on with
  | _ n ih =>
    intro ps rs hle
    match n, ps, rs with
    | _, [], rs => simp [settleFuel]
    | _, p :: ps, [] => simp [settleFuel]
    | n + 1, (pn, pa) :: ps, (rn, ra) :: rs =>
      have hshrink := settleStep_shrinks pn rn pa ra ps rs
      simp only [List.length_cons] at hle
      rw [settleFuel]
      split
      · rename_i ht
        rw [if_pos ht] at hshrink
        rw [show ∀ {α β : Type} (f : α → β) (o : Option α), (o.map f).isSome = o.isSome from
          fun f o => by cases o <;> rfl]
        exact ih n (by omega) _ _ (by omega)
      · rename_i ht
        rw [if_neg ht] at hshrink
        exact ih n (by omega) _ _ (by omega)

/-- Sufficient fuel reproduces `settleLoop`. -/
theorem settleFuel_run (n : Nat) (ps rs : List (String × ℚ))
    (hle : ps.length + rs.length ≤ n) :
    settleFuel n ps rs = some (settleLoop ps rs) := by
  rw [settleFuel_of_le n ps rs hle, settleLoop]
  obtain ⟨l, hl⟩ := Option.isSome_iff_exists.mp (settleFuel_isSome _ ps rs le_rfl)
  rw [hl]
  rfl

theorem settleLoop_nil_left (rs : List (String × ℚ)) : settleLoop [] rs = [] := by
  rw [settleLoop, settleFuel_nil_left]
  rfl

theorem settleLoop_nil_right (ps : List (String × ℚ)) : settleLoop ps [] = [] := by
  rw [settleLoop, settleFuel_nil_right]
  rfl

/-- The one-step unfolding of the greedy loop. -/
theorem settleLoop_cons (pn rn : String) (pa ra : ℚ) (ps rs : List (String × ℚ)) :
    settleLoop ((pn, pa) :: ps) ((rn, ra) :: rs) =
      if 0 < min pa ra then
        (pn, min pa ra, rn) ::
          settleLoop (if pySub pa (min pa ra) ≤ 0 then ps else (pn, pySub pa (min pa ra)) :: ps)
            (if pySub ra (min pa ra) ≤ 0 then rs else (rn, pySub ra (min pa ra)) :: rs)
      else
        settleLoop (if pa ≤ 0 then ps else (pn, pa) :: ps)
          (if ra ≤ 0 then rs else (rn, ra) :: rs) := by
  have hshrink := settleStep_shrinks pn rn pa ra ps rs
  conv_lhs => rw [settleLoop]
  simp only [List.length_cons]
  rw [show ps.length + 1 + (rs.length + 1) = ps.length + 1 + rs.length + 1 from rfl,
    settleFuel]
  split
  · rename_i ht
    rw [if_pos ht] at hshrink
    rw [settleFuel_run _ _ _ (by omega)]
    rfl
  · rename_i ht
    rw [if_neg ht] at hshrink
    rw [settleFuel_run _ _ _ (by omega)]
    rfl

theorem insertDesc_perm {α : Type} (key : α → ℚ) (x : α) (l : List α) :
    (insertDesc key x l).Perm (x :: l) := by
  induction l with
  | nil => exact List.Perm.refl _
  | cons y ys ih =>
    rw [insertDesc]
    split
    · exact List.Perm.refl _
    · exact (ih.cons y).trans (List.Perm.swap x y ys)

theorem sortDesc_perm {α : Type} (key : α → ℚ) (l : List α) :
    (sortDesc key l).Perm l := by
  induction l with
  | nil => exact List.Perm.refl _
  | cons x xs ih => exact (insertDesc_perm key x (sortDesc key xs)).trans (ih.cons x)

theorem sortDesc_mem {α : Type} (key : α → ℚ) (l : List α) (x : α)
    (hx : x ∈ sortDesc key l) : x ∈ l :=
  (sortDesc_perm key l).mem_iff.mp hx

theorem sortDesc_length {α : Type} (key : α → ℚ) (l : List α) :
    (sortDesc key l).length = l.length :=
  (sortDesc_perm key l).length_eq

theorem insertDesc_sorted {α : Type} (key : α → ℚ) (x : α) (l : List α)
    (hl : l.Pairwise (fun a b => key b ≤ key a)) :
    (insertDesc key x l).Pairwise (fun a b => key b ≤ key a) := by
  induction l with
  | nil => simp [insertDesc]
  | cons y ys ih =>
    rcases List.pairwise_cons.mp hl with ⟨hl1, hl2⟩
    rw [insertDesc]
    split
    · rename_i hxy
      refine List.pairwise_cons.mpr ⟨?_, hl⟩
      intro z hz
      rcases List.mem_cons.mp hz with hz | hz
      · rw [hz]; exact hxy
      · exact (hl1 z hz).trans hxy
    · rename_i hxy
      refine List.pairwise_cons.mpr ⟨?_, ih hl2⟩
      intro z hz
      have hz2 := (insertDesc_perm key x ys).mem_iff.mp hz
      rcases List.mem_cons.mp hz2 with hz2 | hz2
      · rw [hz2]; exact le_of_lt (lt_of_not_le hxy)
      · exact hl1 z hz2

theorem sortDesc_sorted {α : Type} (key : α → ℚ) (l : List α) :
    (sortDesc key l).Pairwise (fun a b => key b ≤ key a) := by
  induction l with
  | nil => simp [sortDesc]
  | cons x xs ih => exact insertDesc_sorted key x _ ih

theorem insertDesc_filter {α : Type} (key : α → ℚ) (v : ℚ) (x : α) (l : List α)
    (hl : l.Pairwise (fun a b => key b ≤ key a)) :
    (insertDesc key x l).filter (fun a => decide (key a = v)) =
      if key x = v then x :: l.filter (fun a => decide (key a = v))
      else l.filter (fun a => decide (key a = v)) := by
  induction l with
  | nil =>
    by_cases hkx : key x = v <;> simp [insertDesc, List.filter_cons, hkx]
  | cons y ys ih =>
    rcases List.pairwise_cons.mp hl with ⟨hl1, hl2⟩
    rw [insertDesc]
    split
    · rename_i hxy
      by_cases hkx : key x = v <;> simp [List.filter_cons, hkx]
    · rename_i hxy
      rw [List.filter_cons, ih hl2]
      by_cases hkx : key x = v
      · have hky : ¬ key y = v := by
          intro hky
          exact hxy (by rw [hky, hkx])
        simp [hkx, hky, List.filter_cons]
      · by_cases hky : key y = v <;> simp [hkx, hky, List.filter_cons]

theorem sortDesc_filter {α : Type} (key : α → ℚ) (v : ℚ) (l : List α) :
    (sortDesc key l).filter (fun a => decide (key a = v)) =
      l.filter (fun a => decide (key a = v)) := by
  induction l with
  | nil => rfl
  | cons x xs ih =>
    rw [sortDesc, insertDesc_filter key v x _ (sortDesc_sorted key xs)]
    by_cases hkx : key x = v <;> simp [hkx, List.filter_cons, ih]

theorem ratFloor_eq (q : ℚ) : Rat.floor q = ⌊q⌋ :=
  (Rat.floor_def' q).trans Rat.floor_def.symm

theorem pyTrunc_of_nonneg (q : ℚ) (h : 0 ≤ q) : pyTrunc q = ⌊q⌋ := by
  rw [pyTrunc, if_neg (not_lt.mpr h), ratFloor_eq]

theorem pyTrunc_le (q : ℚ) (h : 0 ≤ q) : (pyTrunc q : ℚ) ≤ q := by
  rw [pyTrunc_of_nonneg q h]
  exact Int.floor_le q

theorem pyTrunc_gap (q : ℚ) (h : 0 ≤ q) : q - (pyTrunc q : ℚ) < 1 := by
  rw [pyTrunc_of_nonneg q h]
  have := Int.lt_floor_add_one q
  linarith

theorem pyTrunc_nonneg (q : ℚ) (h : 0 ≤ q) : 0 ≤ pyTrunc q := by
  rw [pyTrunc_of_nonneg q h]
  exact Int.floor_nonneg.mpr h

theorem paidQ_nil (n : String) : paidQ [] n = 0 := rfl

theorem recvQ_nil (n : String) : recvQ [] n = 0 := rfl

theorem paidQ_cons (p : String) (a : ℚ) (r : String) (recs : List Rec3) (n : String) :
    paidQ ((p, a, r) :: recs) n = (if p = n then a else 0) + paidQ recs n := by
  by_cases h : p = n <;> simp [paidQ, List.filter_cons, h]

theorem recvQ_cons (p : String) (a : ℚ) (r : String) (recs : List Rec3) (n : String) :
    recvQ ((p, a, r) :: recs) n = (if r = n then a else 0) + recvQ recs n := by
  by_cases h : r = n <;> simp [recvQ, List.filter_cons, h]

theorem residQ_nil : residQ [] = 0 := rfl

theorem residQ_cons (p : String) (a : ℚ) (r : String) (recs : List Rec3) :
    residQ ((p, a, r) :: recs) = (a - (pyTrunc a : ℚ)) + residQ recs := by
  simp [residQ]

theorem amtSum_nil (n : String) : amtSum [] n = 0 := rfl

theorem amtSum_cons (m : String) (b : ℚ) (l : List (String × ℚ)) (n : String) :
    amtSum ((m, b) :: l) n = (if m = n then b else 0) + amtSum l n := by
  by_cases h : m = n <;> simp [amtSum, List.filter_cons, h]

theorem amtSum_append (l₁ l₂ : List (String × ℚ)) (n : String) :
    amtSum (l₁ ++ l₂) n = amtSum l₁ n + amtSum l₂ n := by
  simp [amtSum, List.filter_append]

theorem amtSum_single (m : String) (b : ℚ) (n : String) :
    amtSum [(m, b)] n = if m = n then b else 0 := by
  by_cases h : m = n <;> simp [amtSum, List.filter_cons, h]

theorem amtSum_nonneg (l : List (String × ℚ)) (n : String)
    (h : ∀ x ∈ l, (0:ℚ) < x.2) : 0 ≤ amtSum l n := by
  apply List.sum_nonneg
  intro x hx
  obtain ⟨y, hy, rfl⟩ := List.mem_map.mp hx
  exact le_of_lt (h y (List.mem_of_mem_filter hy))

theorem amtSum_eq_zero (l : List (String × ℚ)) (n : String)
    (h : n ∉ l.map Prod.fst) : amtSum l n = 0 := by
  induction l with
  | nil => rfl
  | cons x xs ih =>
    obtain ⟨m, b⟩ := x
    simp only [List.map_cons, List.mem_cons, not_or] at h
    rw [amtSum_cons, if_neg (fun hc => h.1 hc.symm), ih h.2, add_zero]

theorem paidZ_le_paidQ (recs : List Rec3) (n : String)
    (h : ∀ r ∈ recs, (0:ℚ) ≤ r.2.1) : ((paidZ recs n : ℤ) : ℚ) ≤ paidQ recs n := by
  rw [paidZ, paidQ, Int.cast_list_sum, List.map_map]
  apply List.sum_le_sum
  intro r hr
  exact pyTrunc_le r.2.1 (h r (List.mem_of_mem_filter hr))

theorem recvZ_le_recvQ (recs : List Rec3) (n : String)
    (h : ∀ r ∈ recs, (0:ℚ) ≤ r.2.1) : ((recvZ recs n : ℤ) : ℚ) ≤ recvQ recs n := by
  rw [recvZ, recvQ, Int.cast_list_sum, List.map_map]
  apply List.sum_le_sum
  intro r hr
  exact pyTrunc_le r.2.1 (h r (List.mem_of_mem_filter hr))

theorem residQ_nonneg (recs : List Rec3) (h : ∀ r ∈ recs, (0:ℚ) ≤ r.2.1) :
    0 ≤ residQ recs := by
  apply List.sum_nonneg
  intro x hx
  obtain ⟨r, hr, rfl⟩ := List.mem_map.mp hx
  have := pyTrunc_le r.2.1 (h r hr)
  linarith

theorem residQ_lt_length (recs : List Rec3) (h : ∀ r ∈ recs, (0:ℚ) ≤ r.2.1)
    (hne : recs ≠ []) : residQ recs < (recs.length : ℚ) := by
  induction recs with
  | nil => exact absurd rfl hne
  | cons r rest ih =>
    obtain ⟨p, a, q⟩ := r
    have hhead : a - (pyTrunc a : ℚ) < 1 :=
      pyTrunc_gap a (h (p, a, q) (List.mem_cons_self _ _))
    rw [residQ_cons]
    rcases List.eq_nil_or_concat rest with hr | _
    · subst hr
      rw [residQ_nil]
      simp only [List.length_cons, List.length_nil]
      push_cast
      linarith
    · rcases List.eq_nil_or_concat rest with hnil | hx
      · subst hnil
        rw [residQ_nil]
        simp only [List.length_cons, List.length_nil]
        push_cast
        linarith
      · have hrest : rest ≠ [] := by
          rcases hx with ⟨l, b, rfl⟩
          simp
        have hrec := ih (fun x hx => h x (List.mem_cons_of_mem _ hx)) hrest
        simp only [List.length_cons]
        push_cast
        linarith

theorem filter_pair_length {α : Type} (p q : α → Bool) : ∀ (l : List α),
    (∀ x ∈ l, ¬(p x = true ∧ q x = true)) →
    (l.filter p).length + (l.filter q).length ≤ l.length := by
  intro l
  induction l with
  | nil => intro _; simp
  | cons x xs ih =>
    intro h
    have hx := h x (List.mem_cons_self _ _)
    have ihs := ih (fun y hy => h y (List.mem_cons_of_mem _ hy))
    rw [List.filter_cons, List.filter_cons]
    by_cases hp : p x = true
    · by_cases hq : q x = true
      · exact absurd ⟨hp, hq⟩ hx
      · simp only [hp, hq, if_pos, if_neg, Bool.false_eq_true, if_false,
          List.length_cons]
        omega
    · by_cases hq : q x = true <;>
        simp only [hp, hq, if_pos, if_neg, Bool.false_eq_true, if_false,
          List.length_cons] <;>
        omega

theorem stepKeep_pos (c : Prop) [Decidable c] (nm : String) (a : ℚ)
    (l : List (String × ℚ)) (hl : ∀ x ∈ l, (0:ℚ) < x.2) (ha : ¬c → 0 < a) :
    ∀ x ∈ (if c then l else (nm, a) :: l), (0:ℚ) < x.2 := by
  split
  · exact hl
  · rename_i hc
    intro x hx
    rcases List.mem_cons.mp hx with hx | hx
    · rw [hx]; exact ha hc
    · exact hl x hx

theorem stepKeep_names (c : Prop) [Decidable c] (nm : String) (a b : ℚ)
    (l : List (String × ℚ)) :
    (if c then l else (nm, a) :: l).map Prod.fst ⊆ ((nm, b) :: l).map Prod.fst := by
  split
  · intro z hz
    exact List.mem_cons_of_mem _ hz
  · intro z hz
    simpa using hz

theorem settleLoop_mem_aux : ∀ (N : ℕ) (ps rs : List (String × ℚ)),
    ps.length + rs.length ≤ N →
    (∀ x ∈ ps, (0:ℚ) < x.2) → (∀ x ∈ rs, (0:ℚ) < x.2) →
    ∀ r ∈ settleLoop ps rs,
      0 < r.2.1 ∧ r.1 ∈ ps.map Prod.fst ∧ r.2.2 ∈ rs.map Prod.fst := by
  intro N
  induction N with
  | zero =>
    intro ps rs hlen _ _ r hrm
    have hps : ps = [] := List.eq_nil_of_length_eq_zero (by omega)
    rw [hps, settleLoop_nil_left] at hrm
    exact absurd hrm (List.not_mem_nil r)
  | succ N ihN =>
    intro ps rs hlen hp hr r hrm
    match ps, rs with
    | [], rs =>
      rw [settleLoop_nil_left] at hrm
      exact absurd hrm (List.not_mem_nil r)
    | p :: ps', [] =>
      rw [settleLoop_nil_right] at hrm
      exact absurd hrm (List.not_mem_nil r)
    | (pn, pa) :: ps', (rn, ra) :: rs' =>
      have hpa : 0 < pa := hp (pn, pa) (List.mem_cons_self _ _)
      have hra : 0 < ra := hr (rn, ra) (List.mem_cons_self _ _)
      have ht : 0 < min pa ra := lt_min hpa hra
      rw [settleLoop_cons, if_pos ht] at hrm
      have hshrink := settleStep_shrinks pn rn pa ra ps' rs'
      rw [if_pos ht] at hshrink
      simp only [List.length_cons] at hlen
      rcases List.mem_cons.mp hrm with hrm | hrm
      · refine ⟨by rw [hrm]; exact ht, by rw [hrm]; simp, by rw [hrm]; simp⟩
      · have hp' : ∀ x ∈ ps', (0:ℚ) < x.2 := fun x hx => hp x (List.mem_cons_of_mem _ hx)
        have hr' : ∀ x ∈ rs', (0:ℚ) < x.2 := fun x hx => hr x (List.mem_cons_of_mem _ hx)
        obtain ⟨h1, h2, h3⟩ := ihN _ _ (by omega)
          (stepKeep_pos _ pn (pySub pa (min pa ra)) ps' hp' (fun hc => lt_of_not_le hc))
          (stepKeep_pos _ rn (pySub ra (min pa ra)) rs' hr' (fun hc => lt_of_not_le hc))
          r hrm
        exact ⟨h1, stepKeep_names _ pn _ pa ps' h2, stepKeep_names _ rn _ ra rs' h3⟩

theorem settleLoop_mem (ps rs : List (String × ℚ))
    (hp : ∀ x ∈ ps, (0:ℚ) < x.2) (hr : ∀ x ∈ rs, (0:ℚ) < x.2) :
    ∀ r ∈ settleLoop ps rs,
      0 < r.2.1 ∧ r.1 ∈ ps.map Prod.fst ∧ r.2.2 ∈ rs.map Prod.fst :=
  settleLoop_mem_aux (ps.length + rs.length) ps rs le_rfl hp hr

theorem settleLoop_paid_aux : ∀ (N : ℕ) (ps rs : List (String × ℚ)),
    ps.length + rs.length ≤ N →
    (∀ x ∈ ps, (0:ℚ) < x.2) → (∀ x ∈ rs, (0:ℚ) < x.2) →
    ∀ n, paidQ (settleLoop ps rs) n ≤ amtSum ps n := by
  intro N
  induction N with
  | zero =>
    intro ps rs hlen hp _ n
    have hps : ps = [] := List.eq_nil_of_length_eq_zero (by omega)
    rw [hps, settleLoop_nil_left, paidQ_nil, amtSum_nil]
  | succ N ihN =>
    intro ps rs hlen hp hr n
    match ps, rs with
    | [], rs => rw [settleLoop_nil_left, paidQ_nil, amtSum_nil]
    | p :: ps', [] =>
      rw [settleLoop_nil_right, paidQ_nil]
      exact amtSum_nonneg _ n hp
    | (pn, pa) :: ps', (rn, ra) :: rs' =>
      have hpa : 0 < pa := hp (pn, pa) (List.mem_cons_self _ _)
      have hra : 0 < ra := hr (rn, ra) (List.mem_cons_self _ _)
      have ht : 0 < min pa ra := lt_min hpa hra
      have htpa : min pa ra ≤ pa := min_le_left _ _
      rw [settleLoop_cons, if_pos ht, paidQ_cons, amtSum_cons]
      have hshrink := settleStep_shrinks pn rn pa ra ps' rs'
      rw [if_pos ht] at hshrink
      simp only [List.length_cons] at hlen
      have hp' : ∀ x ∈ ps', (0:ℚ) < x.2 := fun x hx => hp x (List.mem_cons_of_mem _ hx)
      have hr' : ∀ x ∈ rs', (0:ℚ) < x.2 := fun x hx => hr x (List.mem_cons_of_mem _ hx)
      have hrside : ∀ x ∈ (if pySub ra (min pa ra) ≤ 0 then rs'
          else (rn, pySub ra (min pa ra)) :: rs'), (0:ℚ) < x.2 :=
        stepKeep_pos _ rn (pySub ra (min pa ra)) rs' hr' (fun hc => lt_of_not_le hc)
      by_cases hc : pySub pa (min pa ra) ≤ 0
      · rw [if_pos hc]
        have ihh := ihN ps' (if pySub ra (min pa ra) ≤ 0 then rs'
            else (rn, pySub ra (min pa ra)) :: rs')
          (by rw [if_pos hc] at hshrink; omega) hp' hrside n
        have hhead : (if pn = n then min pa ra else 0) ≤ (if pn = n then pa else 0) := by
          split
          · exact htpa
          · exact le_refl 0
        linarith [ihh, hhead]
      · rw [if_neg hc]
        have hkeep : ∀ x ∈ (pn, pySub pa (min pa ra)) :: ps', (0:ℚ) < x.2 := by
          intro x hx
          rcases List.mem_cons.mp hx with hx | hx
          · rw [hx]; exact lt_of_not_le hc
          · exact hp' x hx
        have ihh := ihN ((pn, pySub pa (min pa ra)) :: ps') (if pySub ra (min pa ra) ≤ 0 then rs'
            else (rn, pySub ra (min pa ra)) :: rs')
          (by rw [if_neg hc] at hshrink; omega) hkeep hrside n
        rw [amtSum_cons] at ihh
        have hadd : (if pn = n then min pa ra else 0) +
            (if pn = n then pySub pa (min pa ra) else 0) = (if pn = n then pa else 0) := by
          rw [pySub_eq]
          split <;> ring
        linarith [ihh, hadd]

theorem settleLoop_paid (ps rs : List (String × ℚ))
    (hp : ∀ x ∈ ps, (0:ℚ) < x.2) (hr : ∀ x ∈ rs, (0:ℚ) < x.2) (n : String) :
    paidQ (settleLoop ps rs) n ≤ amtSum ps n :=
  settleLoop_paid_aux (ps.length + rs.length) ps rs le_rfl hp hr n

theorem settleLoop_recv_aux : ∀ (N : ℕ) (ps rs : List (String × ℚ)),
    ps.length + rs.length ≤ N →
    (∀ x ∈ ps, (0:ℚ) < x.2) → (∀ x ∈ rs, (0:ℚ) < x.2) →
    ∀ n, recvQ (settleLoop ps rs) n ≤ amtSum rs n := by
  intro N
  induction N with
  | zero =>
    intro ps rs hlen _ hr n
    have hps : ps = [] := List.eq_nil_of_length_eq_zero (by omega)
    rw [hps, settleLoop_nil_left, recvQ_nil]
    exact amtSum_nonneg _ n hr
  | succ N ihN =>
    intro ps rs hlen hp hr n
    match ps, rs with
    | [], rs =>
      rw [settleLoop_nil_left, recvQ_nil]
      exact amtSum_nonneg _ n hr
    | p :: ps', [] => rw [settleLoop_nil_right, recvQ_nil, amtSum_nil]
    | (pn, pa) :: ps', (rn, ra) :: rs' =>
      have hpa : 0 < pa := hp (pn, pa) (List.mem_cons_self _ _)
      have hra : 0 < ra := hr (rn, ra) (List.mem_cons_self _ _)
      have ht : 0 < min pa ra := lt_min hpa hra
      have htra : min pa ra ≤ ra := min_le_right _ _
      rw [settleLoop_cons, if_pos ht, recvQ_cons, amtSum_cons]
      have hshrink := settleStep_shrinks pn rn pa ra ps' rs'
      rw [if_pos ht] at hshrink
      simp only [List.length_cons] at hlen
      have hp' : ∀ x ∈ ps', (0:ℚ) < x.2 := fun x hx => hp x (List.mem_cons_of_mem _ hx)
      have hr' : ∀ x ∈ rs', (0:ℚ) < x.2 := fun x hx => hr x (List.mem_cons_of_mem _ hx)
      have hpside : ∀ x ∈ (if pySub pa (min pa ra) ≤ 0 then ps'
          else (pn, pySub pa (min pa ra)) :: ps'), (0:ℚ) < x.2 :=
        stepKeep_pos _ pn (pySub pa (min pa ra)) ps' hp' (fun hc => lt_of_not_le hc)
      by_cases hc : pySub ra (min pa ra) ≤ 0
      · rw [if_pos hc]
        have ihh := ihN (if pySub pa (min pa ra) ≤ 0 then ps'
            else (pn, pySub pa (min pa ra)) :: ps') rs'
          (by rw [if_pos hc] at hshrink; omega) hpside hr' n
        have hhead : (if rn = n then min pa ra else 0) ≤ (if rn = n then ra else 0) := by
          split
          · exact htra
          · exact le_refl 0
        linarith [ihh, hhead]
      · rw [if_neg hc]
        have hkeep : ∀ x ∈ (rn, pySub ra (min pa ra)) :: rs', (0:ℚ) < x.2 := by
          intro x hx
          rcases List.mem_cons.mp hx with hx | hx
          · rw [hx]; exact lt_of_not_le hc
          · exact hr' x hx
        have ihh := ihN (if pySub pa (min pa ra) ≤ 0 then ps'
            else (pn, pySub pa (min pa ra)) :: ps') ((rn, pySub ra (min pa ra)) :: rs')
          (by rw [if_neg hc] at hshrink; omega) hpside hkeep n
        rw [amtSum_cons] at ihh
        have hadd : (if rn = n then min pa ra else 0) +
            (if rn = n then pySub ra (min pa ra) else 0) = (if rn = n then ra else 0) := by
          rw [pySub_eq]
          split <;> ring
        linarith [ihh, hadd]

theorem settleLoop_recv (ps rs : List (String × ℚ))
    (hp : ∀ x ∈ ps, (0:ℚ) < x.2) (hr : ∀ x ∈ rs, (0:ℚ) < x.2) (n : String) :
    recvQ (settleLoop ps rs) n ≤ amtSum rs n :=
  settleLoop_recv_aux (ps.length + rs.length) ps rs le_rfl hp hr n

theorem settleLoop_len_aux : ∀ (N : ℕ) (ps rs : List (String × ℚ)),
    ps.length + rs.length ≤ N →
    (∀ x ∈ ps, (0:ℚ) < x.2) → (∀ x ∈ rs, (0:ℚ) < x.2) →
    ps ≠ [] → rs ≠ [] →
    (settleLoop ps rs).length + 1 ≤ ps.length + rs.length := by
  intro N
  induction N with
  | zero =>
    intro ps rs hlen _ _ hps _
    have : ps = [] := List.eq_nil_of_length_eq_zero (by omega)
    exact absurd this hps
  | succ N ihN =>
    intro ps rs hlen hp hr hps hrs
    match ps, rs with
    | [], rs => exact absurd rfl hps
    | p :: ps', [] => exact absurd rfl hrs
    | (pn, pa) :: ps', (rn, ra) :: rs' =>
      have hpa : 0 < pa := hp (pn, pa) (List.mem_cons_self _ _)
      have hra : 0 < ra := hr (rn, ra) (List.mem_cons_self _ _)
      have ht : 0 < min pa ra := lt_min hpa hra
      rw [settleLoop_cons, if_pos ht]
      have hshrink := settleStep_shrinks pn rn pa ra ps' rs'
      rw [if_pos ht] at hshrink
      simp only [List.length_cons] at hlen ⊢
      have hp' : ∀ x ∈ ps', (0:ℚ) < x.2 := fun x hx => hp x (List.mem_cons_of_mem _ hx)
      have hr' : ∀ x ∈ rs', (0:ℚ) < x.2 := fun x hx => hr x (List.mem_cons_of_mem _ hx)
      set ps1 := if pySub pa (min pa ra) ≤ 0 then ps' else (pn, pySub pa (min pa ra)) :: ps'
        with hps1
      set rs1 := if pySub ra (min pa ra) ≤ 0 then rs' else (rn, pySub ra (min pa ra)) :: rs'
        with hrs1
      by_cases h1 : ps1 = []
      · rw [h1, settleLoop_nil_left]
        simp only [List.length_cons, List.length_nil]
        omega
      · by_cases h2 : rs1 = []
        · rw [h2, settleLoop_nil_right]
          simp only [List.length_cons, List.length_nil]
          omega
        · have hp1 : ∀ x ∈ ps1, (0:ℚ) < x.2 := by
            rw [hps1]
            exact stepKeep_pos _ pn _ ps' hp' (fun hc => lt_of_not_le hc)
          have hr1 : ∀ x ∈ rs1, (0:ℚ) < x.2 := by
            rw [hrs1]
            exact stepKeep_pos _ rn _ rs' hr' (fun hc => lt_of_not_le hc)
          have ihh := ihN ps1 rs1 (by omega) hp1 hr1 h1 h2
          omega

theorem settleLoop_len (ps rs : List (String × ℚ))
    (hp : ∀ x ∈ ps, (0:ℚ) < x.2) (hr : ∀ x ∈ rs, (0:ℚ) < x.2)
    (hps : ps ≠ []) (hrs : rs ≠ []) :
    (settleLoop ps rs).length + 1 ≤ ps.length + rs.length :=
  settleLoop_len_aux (ps.length + rs.length) ps rs le_rfl hp hr hps hrs

theorem deltasFrom_ok_names (fs : ℚ) : ∀ (ps : Players) (ds : List (String × ℚ)),
    deltasFrom fs ps = .ok ds → ds.map Prod.fst = ps.map Prod.fst := by
  intro ps
  induction ps with
  | nil =>
    intro ds h
    rw [deltasFrom] at h
    injection h with h
    rw [← h]
    rfl
  | cons p ps ih =>
    intro ds h
    rw [deltasFrom] at h
    cases hb : asIntE (statOr0 p.2.balance) with
    | error e => rw [hb] at h; simp [Bind.bind, Except.bind] at h
    | ok b =>
      rw [hb] at h
      cases hrest : deltasFrom fs ps with
      | error e => rw [hrest] at h; simp [Bind.bind, Except.bind] at h
      | ok rest =>
        rw [hrest] at h
        simp only [Bind.bind, Except.bind, pure, Except.pure] at h
        injection h with h
        rw [← h]
        simp only [List.map_cons]
        rw [ih rest hrest]

theorem calcDeltas_ok (ps : Players) (ds : List (String × ℚ))
    (h : calcDeltas ps = .ok ds) :
    ∃ fs, fairShareE ps = .ok fs ∧ deltasFrom fs ps = .ok ds := by
  rw [calcDeltas] at h
  cases hf : fairShareE ps with
  | error e => rw [hf] at h; simp [Bind.bind, Except.bind] at h
  | ok fs =>
    rw [hf] at h
    simp only [Bind.bind, Except.bind] at h
    exact ⟨fs, rfl, h⟩

theorem calcDeltas_ok_names (ps : Players) (ds : List (String × ℚ))
    (h : calcDeltas ps = .ok ds) : ds.map Prod.fst = ps.map Prod.fst := by
  obtain ⟨fs, _, hd⟩ := calcDeltas_ok ps ds h
  exact deltasFrom_ok_names fs ps ds hd

theorem calcRecorded_ok (ps : Players) (recs : List Rec3) (hne : ps ≠ [])
    (h : calcRecorded ps = .ok recs) :
    ∃ ds, calcDeltas ps = .ok ds ∧
      recs = settleLoop (sortDesc (fun x => x.2) (payersOf (pbOf ds)))
        (sortDesc (fun x => x.2) (receiversOf (pbOf ds))) := by
  rw [calcRecorded] at h
  cases hd : calcDeltas ps with
  | error e => rw [hd] at h; simp [Bind.bind, Except.bind] at h
  | ok ds =>
    rw [hd] at h
    simp only [Bind.bind, Except.bind] at h
    rw [if_neg (fun hc => hne (List.length_eq_zero.mp hc))] at h
    injection h with h
    exact ⟨ds, rfl, h.symm⟩

theorem payersOf_cons (x : String × ℚ × ℚ) (pb : List (String × ℚ × ℚ)) :
    payersOf (x :: pb) =
      (if 0 < x.2.2 then [(x.1, x.2.2)] else []) ++ payersOf pb := by
  by_cases h : 0 < x.2.2 <;> simp [payersOf, List.filter_cons, h]

theorem receiversOf_cons (x : String × ℚ × ℚ) (pb : List (String × ℚ × ℚ)) :
    receiversOf (x :: pb) =
      (if 0 < x.2.1 then [(x.1, x.2.1)] else []) ++ receiversOf pb := by
  by_cases h : 0 < x.2.1 <;> simp [receiversOf, List.filter_cons, h]

theorem payersOf_pos (pb : List (String × ℚ × ℚ)) :
    ∀ x ∈ payersOf pb, (0:ℚ) < x.2 := by
  intro x hx
  simp only [payersOf, List.mem_map, List.mem_filter, decide_eq_true_eq] at hx
  obtain ⟨y, ⟨_, hy⟩, rfl⟩ := hx
  exact hy

theorem receiversOf_pos (pb : List (String × ℚ × ℚ)) :
    ∀ x ∈ receiversOf pb, (0:ℚ) < x.2 := by
  intro x hx
  simp only [receiversOf, List.mem_map, List.mem_filter, decide_eq_true_eq] at hx
  obtain ⟨y, ⟨_, hy⟩, rfl⟩ := hx
  exact hy

theorem pbOf_names (ds : List (String × ℚ)) :
    (pbOf ds).map Prod.fst = ds.map Prod.fst := by
  rw [pbOf, List.map_map]
  rfl

theorem payersOf_names_sub (pb : List (String × ℚ × ℚ)) :
    (payersOf pb).map Prod.fst ⊆ pb.map Prod.fst := by
  intro z hz
  simp only [payersOf, List.map_map, List.mem_map, Function.comp, List.mem_filter] at hz
  obtain ⟨y, ⟨hy, _⟩, rfl⟩ := hz
  exact List.mem_map.mpr ⟨y, hy, rfl⟩

theorem receiversOf_names_sub (pb : List (String × ℚ × ℚ)) :
    (receiversOf pb).map Prod.fst ⊆ pb.map Prod.fst := by
  intro z hz
  simp only [receiversOf, List.map_map, List.mem_map, Function.comp, List.mem_filter] at hz
  obtain ⟨y, ⟨hy, _⟩, rfl⟩ := hz
  exact List.mem_map.mpr ⟨y, hy, rfl⟩

theorem keys_nodup_pair : ∀ (l : List (String × ℚ)), (l.map Prod.fst).Nodup →
    ∀ a b c, (a, b) ∈ l → (a, c) ∈ l → b = c := by
  intro l
  induction l with
  | nil => intro _ a b c hab _; exact absurd hab (List.not_mem_nil _)
  | cons hd tl ih =>
    intro hnd a b c hab hac
    obtain ⟨m, e⟩ := hd
    simp only [List.map_cons] at hnd
    obtain ⟨hm, hnd2⟩ := List.nodup_cons.mp hnd
    rcases List.mem_cons.mp hab with hab | hab <;> rcases List.mem_cons.mp hac with hac | hac
    · injection hab with h1 h2
      injection hac with h3 h4
      rw [h2, h4]
    · injection hab with h1 h2
      exact absurd (List.mem_map.mpr ⟨(a, c), hac, by rw [← h1]⟩) hm
    · injection hac with h3 h4
      exact absurd (List.mem_map.mpr ⟨(a, b), hab, by rw [← h3]⟩) hm
    · exact ih hnd2 a b c hab hac

theorem mem_payers_names (ds : List (String × ℚ)) (n : String)
    (h : n ∈ (payersOf (pbOf ds)).map Prod.fst) : ∃ d, (n, d) ∈ ds ∧ d < 0 := by
  simp only [payersOf, pbOf, List.map_map, List.mem_map, Function.comp,
    List.mem_filter, decide_eq_true_eq] at h
  obtain ⟨y, ⟨⟨x, hx, rfl⟩, hy⟩, rfl⟩ := h
  refine ⟨x.2, by simpa using hx, ?_⟩
  by_contra hc
  rw [if_neg hc] at hy
  exact lt_irrefl 0 hy

theorem mem_receivers_names (ds : List (String × ℚ)) (n : String)
    (h : n ∈ (receiversOf (pbOf ds)).map Prod.fst) : ∃ d, (n, d) ∈ ds ∧ 0 < d := by
  simp only [receiversOf, pbOf, List.map_map, List.mem_map, Function.comp,
    List.mem_filter, decide_eq_true_eq] at h
  obtain ⟨y, ⟨⟨x, hx, rfl⟩, hy⟩, rfl⟩ := h
  refine ⟨x.2, by simpa using hx, ?_⟩
  by_contra hc
  rw [if_neg hc] at hy
  exact lt_irrefl 0 hy

theorem payers_receivers_disj (ds : List (String × ℚ))
    (hnd : (ds.map Prod.fst).Nodup) (n : String)
    (hp : n ∈ (payersOf (pbOf ds)).map Prod.fst)
    (hr : n ∈ (receiversOf (pbOf ds)).map Prod.fst) : False := by
  obtain ⟨d, hd, hdneg⟩ := mem_payers_names ds n hp
  obtain ⟨e, he, hepos⟩ := mem_receivers_names ds n hr
  have : d = e := keys_nodup_pair ds hnd n d e hd he
  rw [this] at hdneg
  exact absurd (hdneg.trans hepos) (lt_irrefl e)

theorem payersOf_amtSum : ∀ (ds : List (String × ℚ)), (ds.map Prod.fst).Nodup →
    ∀ n d, (n, d) ∈ ds →
    amtSum (payersOf (pbOf ds)) n = if d < 0 then -d else 0 := by
  intro ds
  induction ds with
  | nil => intro _ n d h; exact absurd h (List.not_mem_nil _)
  | cons hd tl ih =>
    intro hnd n d hmem
    obtain ⟨m, e⟩ := hd
    simp only [List.map_cons] at hnd
    obtain ⟨hm, hnd2⟩ := List.nodup_cons.mp hnd
    have hpb : pbOf ((m, e) :: tl) =
        (m, if 0 < e then e else 0, if e < 0 then -e else 0) :: pbOf tl := rfl
    rw [hpb, payersOf_cons, amtSum_append]
    rcases List.mem_cons.mp hmem with hme | hmem2
    · injection hme with h1 h2
      subst h1
      subst h2
      have hz : amtSum (payersOf (pbOf tl)) n = 0 := by
        apply amtSum_eq_zero
        intro hc
        exact hm (by rw [← pbOf_names]; exact payersOf_names_sub (pbOf tl) hc)
      rw [hz, add_zero]
      by_cases hdlt : d < 0
      · have e1 : (if d < 0 then -d else 0 : ℚ) = -d := if_pos hdlt
        have hpos : (0:ℚ) < -d := by linarith
        rw [e1, if_pos hpos, amtSum_single]
        simp
      · have e1 : (if d < 0 then -d else 0 : ℚ) = 0 := if_neg hdlt
        rw [e1, if_neg (lt_irrefl (0:ℚ)), amtSum_nil]
    · have hmn : m ≠ n := by
        intro he2
        exact hm (he2 ▸ List.mem_map.mpr ⟨(n, d), hmem2, rfl⟩)
      have hh : ∀ w : ℚ, amtSum (if 0 < w then [(m, w)] else []) n = 0 := by
        intro w
        split
        · rw [amtSum_single, if_neg hmn]
        · rw [amtSum_nil]
      rw [hh, zero_add]
      exact ih hnd2 n d hmem2

theorem receiversOf_amtSum : ∀ (ds : List (String × ℚ)), (ds.map Prod.fst).Nodup →
    ∀ n d, (n, d) ∈ ds →
    amtSum (receiversOf (pbOf ds)) n = if 0 < d then d else 0 := by
  intro ds
  induction ds with
  | nil => intro _ n d h; exact absurd h (List.not_mem_nil _)
  | cons hd tl ih =>
    intro hnd n d hmem
    obtain ⟨m, e⟩ := hd
    simp only [List.map_cons] at hnd
    obtain ⟨hm, hnd2⟩ := List.nodup_cons.mp hnd
    have hpb : pbOf ((m, e) :: tl) =
        (m, if 0 < e then e else 0, if e < 0 then -e else 0) :: pbOf tl := rfl
    rw [hpb, receiversOf_cons, amtSum_append]
    rcases List.mem_cons.mp hmem with hme | hmem2
    · injection hme with h1 h2
      subst h1
      subst h2
      have hz : amtSum (receiversOf (pbOf tl)) n = 0 := by
        apply amtSum_eq_zero
        intro hc
        exact hm (by rw [← pbOf_names]; exact receiversOf_names_sub (pbOf tl) hc)
      rw [hz, add_zero]
      by_cases hdlt : 0 < d
      · have e1 : (if 0 < d then d else 0 : ℚ) = d := if_pos hdlt
        rw [e1, if_pos hdlt, amtSum_single]
        simp
      · have e1 : (if 0 < d then d else 0 : ℚ) = 0 := if_neg hdlt
        rw [e1, if_neg (lt_irrefl (0:ℚ)), amtSum_nil]
    · have hmn : m ≠ n := by
        intro he2
        exact hm (he2 ▸ List.mem_map.mpr ⟨(n, d), hmem2, rfl⟩)
      have hh : ∀ w : ℚ, amtSum (if 0 < w then [(m, w)] else []) n = 0 := by
        intro w
        split
        · rw [amtSum_single, if_neg hmn]
        · rw [amtSum_nil]
      rw [hh, zero_add]
      exact ih hnd2 n d hmem2

theorem payers_receivers_len (ds : List (String × ℚ)) :
    (payersOf (pbOf ds)).length + (receiversOf (pbOf ds)).length ≤ ds.length := by
  have h1 : (payersOf (pbOf ds)).length =
      ((pbOf ds).filter (fun x => decide (0 < x.2.2))).length := by
    rw [payersOf, List.length_map]
  have h2 : (receiversOf (pbOf ds)).length =
      ((pbOf ds).filter (fun x => decide (0 < x.2.1))).length := by
    rw [receiversOf, List.length_map]
  have h3 : (pbOf ds).length = ds.length := by rw [pbOf, List.length_map]
  rw [h1, h2, ← h3]
  apply filter_pair_length
  intro x hx
  simp only [pbOf, List.mem_map] at hx
  obtain ⟨nd, _, rfl⟩ := hx
  intro ⟨hq, hp⟩
  simp only [decide_eq_true_eq] at hq hp
  by_cases hc : nd.2 < 0
  · rw [if_neg (by linarith : ¬ 0 < nd.2)] at hp
    exact lt_irrefl 0 hp
  · rw [if_neg hc] at hq
    exact lt_irrefl 0 hq

theorem amtSum_perm (l₁ l₂ : List (String × ℚ)) (h : l₁.Perm l₂) (n : String) :
    amtSum l₁ n = amtSum l₂ n :=
  ((h.filter _).map _).sum_eq

/-! ### The claims -/

/-- Claim C10: for every pair of payer and receiver lists the greedy matching
loop terminates, and it runs within `payer_count + receiver_count` iterations:
the fuel-indexed loop given exactly that much fuel never runs out and
reproduces the loop's result. -/
theorem claim_C10_greedy_terminates (ps rs : List (String × ℚ)) :
    settleFuel (ps.length + rs.length) ps rs = some (settleLoop ps rs) :=
  settleFuel_run _ ps rs le_rfl

/-- Claim C2, counterexample: on three players with net profit 1 the engine
records two transfers whose pre-truncation amount is `1/3`, so the emitted
instructions carry amount `int(1/3) = 0`, refuting "amount always > 0". -/
theorem claim_C2_counterexample :
    calcSplit exThirds = .ok ["A: transfer 0 to B", "A: transfer 0 to C"] := by
  decide

/-- Claim C2, amended: for a player map with distinct names, every recorded
transfer has a strictly positive pre-truncation amount (an instruction is
recorded only when the transferred amount is positive), its emitted integer
amount is nonnegative (it can be 0 after truncation), and its payer and
receiver differ. -/
theorem claim_C2_amended (ps : Players) (recs : List Rec3)
    (hnd : (ps.map Prod.fst).Nodup) (hrec : calcRecorded ps = .ok recs) :
    ∀ r ∈ recs, 0 < r.2.1 ∧ 0 ≤ pyTrunc r.2.1 ∧ r.1 ≠ r.2.2 := by
  by_cases hne : ps = []
  · subst hne
    have hempty : calcRecorded ([] : Players) = .ok [] := by decide
    rw [hempty] at hrec
    injection hrec with hrec
    rw [← hrec]
    intro r hr
    exact absurd hr (List.not_mem_nil r)
  · obtain ⟨ds, hds, hrecs⟩ := calcRecorded_ok ps recs hne hrec
    set SP := sortDesc (fun x => x.2) (payersOf (pbOf ds)) with hSP
    set SR := sortDesc (fun x => x.2) (receiversOf (pbOf ds)) with hSR
    have hpPos : ∀ x ∈ SP, (0:ℚ) < x.2 := by
      rw [hSP]
      intro x hx
      exact payersOf_pos _ x (sortDesc_mem _ _ x hx)
    have hrPos : ∀ x ∈ SR, (0:ℚ) < x.2 := by
      rw [hSR]
      intro x hx
      exact receiversOf_pos _ x (sortDesc_mem _ _ x hx)
    intro r hr
    rw [hrecs] at hr
    obtain ⟨hpos, hpm, hrm⟩ := settleLoop_mem SP SR hpPos hrPos r hr
    refine ⟨hpos, pyTrunc_nonneg _ (le_of_lt hpos), ?_⟩
    intro heq
    have hpm' : r.1 ∈ (payersOf (pbOf ds)).map Prod.fst := by
      refine ((sortDesc_perm (fun x => x.2) (payersOf (pbOf ds))).map Prod.fst).mem_iff.mp ?_
      rw [← hSP]
      exact hpm
    have hrm' : r.1 ∈ (receiversOf (pbOf ds)).map Prod.fst := by
      refine ((sortDesc_perm (fun x => x.2) (receiversOf (pbOf ds))).map Prod.fst).mem_iff.mp ?_
      rw [← hSR, heq]
      exact hrm
    have hndds : (ds.map Prod.fst).Nodup := by
      rw [calcDeltas_ok_names ps ds hds]
      exact hnd
    exact payers_receivers_disj ds hndds r.1 hpm' hrm'

/-- Claim C2, witness for the amended theorem at a concrete input. -/
theorem claim_C2_witness :
    ((exTwo.map Prod.fst).Nodup ∧ calcRecorded exTwo = .ok [("Bb", 100, "Aa")]) ∧
    (∀ r ∈ [(("Bb" : String), (100 : ℚ), ("Aa" : String))],
      0 < r.2.1 ∧ 0 ≤ pyTrunc r.2.1 ∧ r.1 ≠ r.2.2) :=
  ⟨⟨by decide, by decide⟩, claim_C2_amended exTwo _ (by decide) (by decide)⟩

/-- Claim C1: in a non-empty player map with distinct names, the total
emitted amount paid by each player is at most that player's owed amount
`-delta` (where `delta = fair_share - balance`), the total emitted amount
received by each player is at most the `delta` owed to them, and the residual
left by rounding is strictly less than the player count. -/
theorem claim_C1_settlement_bounds (ps : Players) (ds : List (String × ℚ))
    (recs : List Rec3) (hne : ps ≠ []) (hnd : (ps.map Prod.fst).Nodup)
    (hds : calcDeltas ps = .ok ds) (hrec : calcRecorded ps = .ok recs) :
    (∀ nd ∈ ds,
      ((paidZ recs nd.1 : ℤ) : ℚ) ≤ (if nd.2 < 0 then -nd.2 else 0) ∧
      ((recvZ recs nd.1 : ℤ) : ℚ) ≤ (if 0 < nd.2 then nd.2 else 0)) ∧
    residQ recs < (ps.length : ℚ) := by
  obtain ⟨ds', hds', hrecs⟩ := calcRecorded_ok ps recs hne hrec
  rw [hds] at hds'
  injection hds' with hds'
  subst hds'
  set SP := sortDesc (fun x => x.2) (payersOf (pbOf ds)) with hSP
  set SR := sortDesc (fun x => x.2) (receiversOf (pbOf ds)) with hSR
  have hpPos : ∀ x ∈ SP, (0:ℚ) < x.2 := by
    rw [hSP]
    intro x hx
    exact payersOf_pos _ x (sortDesc_mem _ _ x hx)
  have hrPos : ∀ x ∈ SR, (0:ℚ) < x.2 := by
    rw [hSR]
    intro x hx
    exact receiversOf_pos _ x (sortDesc_mem _ _ x hx)
  have hAllPos : ∀ r ∈ recs, (0:ℚ) < r.2.1 := by
    rw [hrecs]
    intro r hr
    exact (settleLoop_mem SP SR hpPos hrPos r hr).1
  have hndds : (ds.map Prod.fst).Nodup := by
    rw [calcDeltas_ok_names ps ds hds]
    exact hnd
  have hdslen : ds.length = ps.length := by
    have := congrArg List.length (calcDeltas_ok_names ps ds hds)
    simpa using this
  constructor
  · rintro ⟨n, d⟩ hmem
    constructor
    · have hp1 : ((paidZ recs n : ℤ) : ℚ) ≤ paidQ recs n :=
        paidZ_le_paidQ recs n (fun r hr => le_of_lt (hAllPos r hr))
      have hp2 : paidQ recs n ≤ amtSum SP n := by
        rw [hrecs]
        exact settleLoop_paid SP SR hpPos hrPos n
      have hp3 : amtSum SP n = amtSum (payersOf (pbOf ds)) n := by
        rw [hSP]
        exact amtSum_perm _ _ (sortDesc_perm _ _) n
      have hp4 := payersOf_amtSum ds hndds n d hmem
      exact hp1.trans (hp2.trans_eq (hp3.trans hp4))
    · have hr1 : ((recvZ recs n : ℤ) : ℚ) ≤ recvQ recs n :=
        recvZ_le_recvQ recs n (fun r hr => le_of_lt (hAllPos r hr))
      have hr2 : recvQ recs n ≤ amtSum SR n := by
        rw [hrecs]
        exact settleLoop_recv SP SR hpPos hrPos n
      have hr3 : amtSum SR n = amtSum (receiversOf (pbOf ds)) n := by
        rw [hSR]
        exact amtSum_perm _ _ (sortDesc_perm _ _) n
      have hr4 := receiversOf_amtSum ds hndds n d hmem
      exact hr1.trans (hr2.trans_eq (hr3.trans hr4))
  · have hpslen : 0 < ps.length := List.length_pos.mpr hne
    by_cases hrec0 : recs = []
    · rw [hrec0, residQ_nil]
      exact_mod_cast hpslen
    · have h1 : residQ recs < (recs.length : ℚ) :=
        residQ_lt_length recs (fun r hr => le_of_lt (hAllPos r hr)) hrec0
      have hSPne : SP ≠ [] := by
        intro hx
        rw [hx, settleLoop_nil_left] at hrecs
        exact hrec0 hrecs
      have hSRne : SR ≠ [] := by
        intro hx
        rw [hx, settleLoop_nil_right] at hrecs
        exact hrec0 hrecs
      have h2 : recs.length + 1 ≤ SP.length + SR.length := by
        rw [hrecs]
        exact settleLoop_len SP SR hpPos hrPos hSPne hSRne
      have h3 : SP.length + SR.length ≤ ps.length := by
        rw [hSP, hSR, sortDesc_length, sortDesc_length, ← hdslen]
        exact payers_receivers_len ds
      have h4 : (recs.length : ℚ) < (ps.length : ℚ) := by
        exact_mod_cast Nat.lt_of_lt_of_le (Nat.lt_of_succ_le h2) h3
      linarith

/-- Claim C1, witness at a concrete three-player input with a fractional
fair share. -/
theorem claim_C1_witness :
    (exThirds ≠ [] ∧ (exThirds.map Prod.fst).Nodup ∧
      calcDeltas exThirds =
        .ok [("A", Rat.divInt (-2) 3), ("B", Rat.divInt 1 3), ("C", Rat.divInt 1 3)] ∧
      calcRecorded exThirds =
        .ok [("A", Rat.divInt 1 3, "B"), ("A", Rat.divInt 1 3, "C")]) ∧
    ((∀ nd ∈ [(("A" : String), Rat.divInt (-2) 3), ("B", Rat.divInt 1 3),
        ("C", Rat.divInt 1 3)],
      ((paidZ [("A", Rat.divInt 1 3, "B"), ("A", Rat.divInt 1 3, "C")] nd.1 : ℤ) : ℚ) ≤
        (if nd.2 < 0 then -nd.2 else 0) ∧
      ((recvZ [("A", Rat.divInt 1 3, "B"), ("A", Rat.divInt 1 3, "C")] nd.1 : ℤ) : ℚ) ≤
        (if 0 < nd.2 then nd.2 else 0)) ∧
    residQ [("A", Rat.divInt 1 3, "B"), ("A", Rat.divInt 1 3, "C")] <
      (exThirds.length : ℚ)) :=
  ⟨⟨by decide, by decide, by decide, by decide⟩,
    claim_C1_settlement_bounds exThirds _ _ (by decide) (by decide) (by decide) (by decide)⟩

/-- Claim C4: the settlement engine sorts the payer and receiver lists
descending by owed amount with a stable sort and no secondary key: each
sorted list is a permutation of the filtered list, is pairwise nonincreasing
in amount, and restricted to any fixed amount equals the unsorted list (whose
order is the first-seen insertion order of the player map, as the delta list
carries exactly the player map's names in order). -/
theorem claim_C4_sorting (ps : Players) (ds : List (String × ℚ))
    (hds : calcDeltas ps = .ok ds) :
    ds.map Prod.fst = ps.map Prod.fst ∧
    (sortDesc (fun x => x.2) (payersOf (pbOf ds))).Perm (payersOf (pbOf ds)) ∧
    (sortDesc (fun x => x.2) (payersOf (pbOf ds))).Pairwise (fun a b => b.2 ≤ a.2) ∧
    (∀ v : ℚ, (sortDesc (fun x => x.2) (payersOf (pbOf ds))).filter
        (fun x => decide (x.2 = v)) =
      (payersOf (pbOf ds)).filter (fun x => decide (x.2 = v))) ∧
    (sortDesc (fun x => x.2) (receiversOf (pbOf ds))).Perm (receiversOf (pbOf ds)) ∧
    (sortDesc (fun x => x.2) (receiversOf (pbOf ds))).Pairwise (fun a b => b.2 ≤ a.2) ∧
    (∀ v : ℚ, (sortDesc (fun x => x.2) (receiversOf (pbOf ds))).filter
        (fun x => decide (x.2 = v)) =
      (receiversOf (pbOf ds)).filter (fun x => decide (x.2 = v))) := by
  refine ⟨calcDeltas_ok_names ps ds hds, sortDesc_perm _ _, sortDesc_sorted _ _,
    fun v => sortDesc_filter _ v _, sortDesc_perm _ _, sortDesc_sorted _ _,
    fun v => sortDesc_filter _ v _⟩

/-- Claim C4, witness at a concrete input. -/
theorem claim_C4_witness :
    (calcDeltas exTwo = .ok [("Aa", 100), ("Bb", -100)]) ∧
    ([("Aa", (100 : ℚ)), ("Bb", -100)].map Prod.fst = exTwo.map Prod.fst ∧
    (sortDesc (fun x => x.2) (payersOf (pbOf [("Aa", (100 : ℚ)), ("Bb", -100)]))).Perm
      (payersOf (pbOf [("Aa", (100 : ℚ)), ("Bb", -100)])) ∧
    (sortDesc (fun x => x.2) (payersOf (pbOf [("Aa", (100 : ℚ)), ("Bb", -100)]))).Pairwise
      (fun a b => b.2 ≤ a.2) ∧
    (∀ v : ℚ, (sortDesc (fun x => x.2)
        (payersOf (pbOf [("Aa", (100 : ℚ)), ("Bb", -100)]))).filter
        (fun x => decide (x.2 = v)) =
      (payersOf (pbOf [("Aa", (100 : ℚ)), ("Bb", -100)])).filter
        (fun x => decide (x.2 = v))) ∧
    (sortDesc (fun x => x.2) (receiversOf (pbOf [("Aa", (100 : ℚ)), ("Bb", -100)]))).Perm
      (receiversOf (pbOf [("Aa", (100 : ℚ)), ("Bb", -100)])) ∧
    (sortDesc (fun x => x.2)
      (receiversOf (pbOf [("Aa", (100 : ℚ)), ("Bb", -100)]))).Pairwise
      (fun a b => b.2 ≤ a.2) ∧
    (∀ v : ℚ, (sortDesc (fun x => x.2)
        (receiversOf (pbOf [("Aa", (100 : ℚ)), ("Bb", -100)]))).filter
        (fun x => decide (x.2 = v)) =
      (receiversOf (pbOf [("Aa", (100 : ℚ)), ("Bb", -100)])).filter
        (fun x => decide (x.2 = v)))) :=
  ⟨by decide, claim_C4_sorting exTwo _ (by decide)⟩

/-- Claim C5, counterexample: on the specification's scenario (loot
`{A:300, B:0, C:0}`, supplies and balances all 0) the engine does not emit
the two claimed transfer lines — with all balances 0 every delta is `+100`,
so the payer list is empty and no transfer is recorded. -/
theorem claim_C5_counterexample :
    calcSplit exSpecThree ≠ .ok ["A: transfer 100 to B", "A: transfer 100 to C"] := by
  decide

/-- Claim C5, amended: on that scenario the engine computes
`net_profit = 300` and `fair_share = 100` as claimed, but every player's
delta is `+100` (everyone is a receiver and nobody is a payer), so the
emitted transfer list is empty. -/
theorem claim_C5_amended :
    netProfitE exSpecThree = .ok 300 ∧
    fairShareE exSpecThree = .ok 100 ∧
    calcDeltas exSpecThree = .ok [("A", 100), ("B", 100), ("C", 100)] ∧
    calcSplit exSpecThree = .ok [] := by
  decide

/-- Claim C6: a malformed stat value (`Loot: abc`) is indeed retained as a
raw string by the parser, but the claim's conclusion fails: the string value
makes the aggregation step raise, the boundary handler catches it, and the
call returns `success = false` with an error — not `success = true`. -/
theorem claim_C6_string_stat_raises :
    (parseSessionData "Alice Smith\nLoot: abc".data).players =
      [("Alice Smith", { loot := some (.str "abc") })] ∧
    calcSplit [("Alice Smith", { loot := some (.str "abc") })] = .error () ∧
    (execute "Alice Smith\nLoot: abc").success = some false ∧
    (execute "Alice Smith\nLoot: abc").error ≠ none := by
  decide

/-- Claim C7: the claim states the intent, and the source's no-players
branch even builds the claimed error object, but the `return result` inside
the `finally` clause supersedes that early return; `result` was never
reassigned on this path, so the caller receives the initial empty dict — it
has no `success`, `error`, `transfers` or `players_parsed` key at all.
Evaluated at the empty input, where no player-name line is recognized, the
embedded code returns the all-absent result object, not the claimed
`success = false` error object; the call still does not crash. -/
theorem claim_C7_finally_discards_error :
    (parseSessionData "".data).players = [] ∧
    execute "" = ({} : ExecResult) ∧
    (execute "").success ≠ some false ∧
    (execute "").transfers = none ∧
    (execute "").error = none ∧
    (execute "").players_parsed = none := by
  decide

/-- Claim C8, counterexample: the non-empty line `ab session` is classified
as none of session-header, loot-type, aggregate, or stat line, yet the
keyword screen discards it and no `PlayerRecord` is opened — the state is
returned unchanged. -/
theorem claim_C8_counterexample :
    (pyStrip "ab session".data ≠ [] ∧
     isSessionInfoLine (pyStrip "ab session".data) = false ∧
     isAggLine (pyStrip "ab session".data) = false ∧
     isStatLine (pyStrip "ab session".data) = false) ∧
    parseStep {} "ab session".data = {} := by
  decide

/-- Claim C8, amended: a non-empty line that is not a session-header,
aggregate, or stat line, that additionally passes the keyword screen
(`session` / `loot type` / `from 20` / exact `leader`), is not a time
pattern, is not an in-header digit-or-leader token, and whose leader-stripped
trimmed name is longer than one character, opens a fresh `PlayerRecord`
keyed by the cleaned name (overwriting any record of that name in place),
makes it the current player, and clears the header flag. -/
theorem claim_C8_amended (st : ParseState) (raw : Line)
    (h1 : (pyStrip raw).isEmpty = false)
    (h2 : isSessionInfoLine (pyStrip raw) = false)
    (h3 : (st.inHeader && isAggLine (pyStrip raw)) = false)
    (h4 : isStatLine (pyStrip raw) = false)
    (h5 : hasSessionKeyword (pyStrip raw) = false)
    (h6 : timePattern (pyStrip raw) = false)
    (h7 : (st.inHeader && (isDigitLine (pyStrip raw) ||
        decide (pyStrip raw = "leader".data))) = false)
    (h8 : 1 < (pyStrip (stripLeaderMarks (pyStrip raw))).length) :
    parseStep st raw = { st with
      players := upsert st.players (String.mk (pyStrip (stripLeaderMarks (pyStrip raw)))) {},
      current := some (String.mk (pyStrip (stripLeaderMarks (pyStrip raw)))),
      inHeader := false } := by
  rw [parseStep]
  simp only [h1, h2, h3, h4, h5, h6, h7, Bool.not_false, Bool.and_self,
    Bool.false_eq_true, if_false, Bool.and_true, Bool.true_and, if_true]
  rw [if_pos h8]

/-- Claim C8, witness: the line `Bob Ray (Leader)` in a state that already
holds a record for `Bob Ray` — the leader annotation is stripped and the
existing record is overwritten in place. -/
theorem claim_C8_witness :
    ((pyStrip "Bob Ray (Leader)".data).isEmpty = false ∧
     isSessionInfoLine (pyStrip "Bob Ray (Leader)".data) = false ∧
     (exState.inHeader && isAggLine (pyStrip "Bob Ray (Leader)".data)) = false ∧
     isStatLine (pyStrip "Bob Ray (Leader)".data) = false ∧
     hasSessionKeyword (pyStrip "Bob Ray (Leader)".data) = false ∧
     timePattern (pyStrip "Bob Ray (Leader)".data) = false ∧
     (exState.inHeader && (isDigitLine (pyStrip "Bob Ray (Leader)".data) ||
        decide (pyStrip "Bob Ray (Leader)".data = "leader".data))) = false ∧
     1 < (pyStrip (stripLeaderMarks (pyStrip "Bob Ray (Leader)".data))).length) ∧
    parseStep exState "Bob Ray (Leader)".data = { exState with
      players := upsert exState.players
        (String.mk (pyStrip (stripLeaderMarks (pyStrip "Bob Ray (Leader)".data)))) {},
      current := some (String.mk (pyStrip (stripLeaderMarks (pyStrip "Bob Ray (Leader)".data)))),
      inHeader := false } :=
  ⟨⟨by decide, by decide, by decide, by decide, by decide, by decide, by decide, by decide⟩,
    claim_C8_amended exState _ (by decide) (by decide) (by decide) (by decide)
      (by decide) (by decide) (by decide) (by decide)⟩

theorem deltasFrom_congr (fs : ℚ) : ∀ (ps₁ ps₂ : Players),
    ps₁.map settlementView = ps₂.map settlementView →
    deltasFrom fs ps₁ = deltasFrom fs ps₂ := by
  intro ps₁
  induction ps₁ with
  | nil =>
    intro ps₂ h
    cases ps₂ with
    | nil => rfl
    | cons q qs => simp at h
  | cons p ps ih =>
    intro ps₂ h
    cases ps₂ with
    | nil => simp at h
    | cons q qs =>
      simp only [List.map_cons, List.cons.injEq] at h
      obtain ⟨hpq, htl⟩ := h
      obtain ⟨n1, r1⟩ := p
      obtain ⟨n2, r2⟩ := q
      simp only [settlementView, Prod.mk.injEq] at hpq
      obtain ⟨hname, _, _, hbal⟩ := hpq
      simp only [deltasFrom, hname, hbal, ih qs htl]

/-- Claim C9: the transfer list depends only on the names, loot, supplies
and balance fields of the player map — two maps with the same settlement
view (hence possibly different damage and healing values) produce identical
transfer lists. -/
theorem claim_C9_noninterference (ps₁ ps₂ : Players)
    (h : ps₁.map settlementView = ps₂.map settlementView) :
    calcSplit ps₁ = calcSplit ps₂ := by
  have hlen : ps₁.length = ps₂.length := by
    have := congrArg List.length h
    simpa using this
  have hloot : ps₁.map (fun p => statOr0 p.2.loot) = ps₂.map (fun p => statOr0 p.2.loot) := by
    have := congrArg (List.map
      (fun v : String × Option StatVal × Option StatVal × Option StatVal => statOr0 v.2.1)) h
    simpa [List.map_map, Function.comp] using this
  have hsupp : ps₁.map (fun p => statOr0 p.2.supplies) =
      ps₂.map (fun p => statOr0 p.2.supplies) := by
    have := congrArg (List.map
      (fun v : String × Option StatVal × Option StatVal × Option StatVal => statOr0 v.2.2.1)) h
    simpa [List.map_map, Function.comp] using this
  have hfs : fairShareE ps₁ = fairShareE ps₂ := by
    rw [fairShareE, fairShareE, netProfitE, netProfitE, sumLootE, sumLootE,
      sumSuppliesE, sumSuppliesE, hloot, hsupp, hlen]
  have hcd : calcDeltas ps₁ = calcDeltas ps₂ := by
    rw [calcDeltas, calcDeltas, hfs]
    cases hf : fairShareE ps₂ with
    | error e => simp [Bind.bind, Except.bind]
    | ok fs =>
      simp only [Bind.bind, Except.bind]
      exact deltasFrom_congr fs ps₁ ps₂ h
  rw [calcSplit, calcSplit, calcRecorded, calcRecorded, hcd, hlen]

/-- Claim C9, witness: two concrete maps equal up to damage and healing. -/
theorem claim_C9_witness :
    exTwo.map settlementView = exTwoDmg.map settlementView ∧
    calcSplit exTwo = calcSplit exTwoDmg :=
  ⟨by decide, claim_C9_noninterference exTwo exTwoDmg (by decide)⟩

end SplitLoot
